import Mathlib

/-!
# Verification of the csvio streaming CSV core

Shallow embedding, in Lean 4, of the core of the `csvio` repository
(`src/core.js`): the `CSVReader` character-by-character decoding state
machine, the `CSVWriter.arrayToCSVString` encoder, and the
`CSVTransformer` batching / concurrency / error-recovery pipeline.

JavaScript strings are modelled as `List Char` (the reader iterates its
input with `for (const char of chunk)`, i.e. by Unicode code point, which
matches Lean's `Char`).  JavaScript values flowing through the
transformer (`null`, strings, nested arrays) are modelled by the
inductive type `JVal`, and the platform's `JSON.parse` / `JSON.stringify`
by an executable model restricted to those values.
-/

/-- The private mutable state of a `CSVReader` instance
(`#row`, `#field`, `#lastChar`, `#escapeMode`, `#justExitedEscapeMode`,
src/core.js lines 51-55). -/
structure ReaderState where
  row : List (List Char)
  field : List Char
  lastChar : Option Char
  escapeMode : Bool
  justExited : Bool
deriving DecidableEq, Repr

/-- The initial state of a freshly constructed `CSVReader`:
`#row = []`, `#field = ''`, `#lastChar = null`, both flags `false`. -/
def initReader : ReaderState := ⟨[], [], none, false, false⟩

/-- One iteration of the character loop of `CSVReader.#transform`
(src/core.js lines 83-126).  Returns the updated state and the row
emitted by this character, if any (the JS code enqueues
`JSON.stringify(row)`; the JSON transport wrapper is elided and the row
itself is returned). -/
def step : ReaderState → Char → ReaderState × Option (List (List Char))
  | ⟨row, field, lastChar, esc, jex⟩, c =>
    if esc then
      -- Escape mode logic
      if c = '"' then (⟨row, field, some c, false, true⟩, none)
      else (⟨row, field ++ [c], some c, true, false⟩, none)
    else
      -- Normal mode logic (every branch ends with justExited := false)
      if c = '"' then
        if jex then (⟨row, field ++ [c], some c, true, false⟩, none)
        else if lastChar = some ',' ∨ lastChar = some '\n' ∨ lastChar = none then
          (⟨row, field, some c, true, false⟩, none)
        else (⟨row, field ++ [c], some c, false, false⟩, none)
      else if c = '\r' ∨ c = '\uFEFF' then (⟨row, field, some c, false, false⟩, none)
      else if c = ',' then (⟨row ++ [field], [], some c, false, false⟩, none)
      else if c = '\n' then (⟨[], [], some c, false, false⟩, some (row ++ [field]))
      else (⟨row, field ++ [c], some c, false, false⟩, none)

/-- `CSVReader.#transform` on one chunk: run `step` over every character
of the chunk in order, collecting the emitted rows. -/
def runChars (s : ReaderState) : List Char → ReaderState × List (List (List Char))
  | [] => (s, [])
  | c :: rest =>
    let p := step s c
    let q := runChars p.1 rest
    (q.1, p.2.toList ++ q.2)

/-- `CSVReader.#flush` (src/core.js lines 129-137): the rows emitted at
end of input. -/
def flushReader : ReaderState → List (List (List Char))
  | ⟨row, field, lastChar, _, _⟩ =>
    if field ≠ [] ∨ row ≠ [] then [row ++ [field]]
    else if lastChar = none then [[[]]]
    else []

/-- Decode a whole text presented as one single chunk: run the state
machine over every character, then flush. -/
def decodeCSV (text : List Char) : List (List (List Char)) :=
  let p := runChars initReader text
  p.2 ++ flushReader p.1

/-- Decode a text presented as a sequence of chunks: feed each chunk to
the per-chunk transform in order (the state persists across chunks),
then flush. -/
def decodeChunks (chunks : List (List Char)) : List (List (List Char)) :=
  let p := chunks.foldl
    (fun acc ch =>
      let q := runChars acc.1 ch
      (q.1, acc.2 ++ q.2))
    (initReader, [])
  p.2 ++ flushReader p.1

/-- The test `/[,"\r\n]/.test(field)` of src/core.js line 420. -/
def needsQuote (f : List Char) : Bool :=
  f.any fun c => c = ',' ∨ c = '"' ∨ c = '\r' ∨ c = '\n'

/-- `field.replaceAll('"', '""')` of src/core.js line 421. -/
def escapeQuotes (f : List Char) : List Char :=
  f.flatMap fun c => if c = '"' then ['"', '"'] else [c]

/-- One loop iteration of `arrayToCSVString` produces this text for one
field (before the trailing comma): quoted-and-doubled if the field
matches `/[,"\r\n]/`, verbatim otherwise. -/
def encodeField (f : List Char) : List Char :=
  if needsQuote f then '"' :: (escapeQuotes f ++ ['"']) else f

/-- `CSVWriter.arrayToCSVString` (src/core.js lines 417-428): append
each encoded field followed by a comma, drop the final character
(`out.slice(0, -1)`), and append CRLF. -/
def arrayToCSVString (arr : List (List Char)) : List Char :=
  (arr.flatMap fun f => encodeField f ++ [',']).dropLast ++ ['\r', '\n']

/-- Spec wording: the field matches `/[,"\r\n]/`. -/
def specMatchesSpecial (f : List Char) : Bool :=
  f.any fun c => c = ',' ∨ c = '"' ∨ c = '\r' ∨ c = '\n'

/-- Spec wording: double every internal double-quote. -/
def specDoubleQuotes (f : List Char) : List Char :=
  f.flatMap fun c => if c = '"' then ['"', '"'] else [c]

/-- Spec wording: wrap in double quotes with internal quotes doubled,
or emit verbatim. -/
def specEncodeField (f : List Char) : List Char :=
  if specMatchesSpecial f then '"' :: (specDoubleQuotes f ++ ['"']) else f

/-- Spec wording: join the encoded fields with commas. -/
def specJoinComma : List (List Char) → List Char
  | [] => []
  | [f] => f
  | f :: g :: rest => f ++ ',' :: specJoinComma (g :: rest)

/-- Spec wording of the whole encoder contract: encode each field, join
with commas, terminate with CRLF. -/
def specEncodeRow (arr : List (List Char)) : List Char :=
  specJoinComma (arr.map specEncodeField) ++ ['\r', '\n']

/-- A JavaScript value as used by the CSV pipeline: `null` (also standing
for `undefined`), a string, or an array. -/
inductive JVal where
  | null : JVal
  | str : List Char → JVal
  | arr : List JVal → JVal

mutual

/-- Decidable equality on `JVal` (the automatic derivation does not
handle the nested occurrence in `arr`). -/
def jvalDecEq : (v w : JVal) → Decidable (v = w)
  | .null, .null => .isTrue rfl
  | .null, .str _ => .isFalse fun h => JVal.noConfusion h
  | .null, .arr _ => .isFalse fun h => JVal.noConfusion h
  | .str _, .null => .isFalse fun h => JVal.noConfusion h
  | .str s, .str t =>
    match decEq s t with
    | .isTrue h => .isTrue (h ▸ rfl)
    | .isFalse h => .isFalse fun hc => h (JVal.str.inj hc)
  | .str _, .arr _ => .isFalse fun h => JVal.noConfusion h
  | .arr _, .null => .isFalse fun h => JVal.noConfusion h
  | .arr _, .str _ => .isFalse fun h => JVal.noConfusion h
  | .arr es, .arr fs =>
    match jvalListDecEq es fs with
    | .isTrue h => .isTrue (h ▸ rfl)
    | .isFalse h => .isFalse fun hc => h (JVal.arr.inj hc)

/-- Decidable equality on lists of `JVal`. -/
def jvalListDecEq : (vs ws : List JVal) → Decidable (vs = ws)
  | [], [] => .isTrue rfl
  | [], _ :: _ => .isFalse fun h => List.noConfusion h
  | _ :: _, [] => .isFalse fun h => List.noConfusion h
  | v :: vs, w :: ws =>
    match jvalDecEq v w, jvalListDecEq vs ws with
    | .isTrue h1, .isTrue h2 => .isTrue (h1 ▸ h2 ▸ rfl)
    | .isFalse h1, _ => .isFalse fun hc => h1 (List.cons.inj hc).1
    | _, .isFalse h2 => .isFalse fun hc => h2 (List.cons.inj hc).2

end

instance : DecidableEq JVal := jvalDecEq

/-- A value thrown or rejected by a transformation function: either an
`Error` instance carrying its message, or any other JavaScript value. -/
inductive Thrown where
  | errObj : List Char → Thrown
  | nonError : JVal → Thrown
deriving DecidableEq

mutual

/-- Modelled from the spec: JavaScript `String()` coercion for the values
of `JVal` (used by `new Error(reason)`): `null` coerces to `"null"`, an
array joins its elements with commas with `null` elements blank. -/
def jsCoerceString : JVal → List Char
  | .null => ['n', 'u', 'l', 'l']
  | .str s => s
  | .arr es => coerceElems es

/-- Array join for `String()` coercion: comma-separated elements. -/
def coerceElems : List JVal → List Char
  | [] => []
  | [v] => coerceElem v
  | v :: w :: rest => coerceElem v ++ ',' :: coerceElems (w :: rest)

/-- One array element under `String()` coercion: `null` is blank. -/
def coerceElem : JVal → List Char
  | .null => []
  | .str s => s
  | .arr es => coerceElems es

end

/-- One hexadecimal digit, lowercase, as produced by `JSON.stringify`
for control-character escapes. -/
def hexDigit (n : Nat) : Char :=
  if n < 10 then Char.ofNat (48 + n) else Char.ofNat (87 + n)

/-- Modelled from the spec: the escaping `JSON.stringify` applies to one
character inside a JSON string literal. -/
def escapeJsonChar (c : Char) : List Char :=
  if c = '"' then ['\\', '"']
  else if c = '\\' then ['\\', '\\']
  else if c = '\n' then ['\\', 'n']
  else if c = '\r' then ['\\', 'r']
  else if c = '\t' then ['\\', 't']
  else if c = '\x08' then ['\\', 'b']
  else if c = '\x0c' then ['\\', 'f']
  else if c.toNat < 32 then ['\\', 'u', '0', '0', hexDigit (c.toNat / 16), hexDigit (c.toNat % 16)]
  else [c]

mutual

/-- Modelled from the spec: JavaScript `JSON.stringify` restricted to the
values of `JVal`. -/
def jsonStringify : JVal → List Char
  | .null => ['n', 'u', 'l', 'l']
  | .str s => '"' :: (s.flatMap escapeJsonChar ++ ['"'])
  | .arr es => '[' :: (stringifyElems es ++ [']'])

/-- Serialize the elements of a JSON array, comma-separated. -/
def stringifyElems : List JVal → List Char
  | [] => []
  | [v] => jsonStringify v
  | v :: w :: rest => jsonStringify v ++ ',' :: stringifyElems (w :: rest)

end

/-- JSON insignificant whitespace. -/
def isJsonWs (c : Char) : Bool :=
  c = ' ' ∨ c = '\t' ∨ c = '\n' ∨ c = '\r'

/-- Skip JSON insignificant whitespace. -/
def skipWs : List Char → List Char
  | [] => []
  | c :: rest => if isJsonWs c then skipWs rest else c :: rest

/-- Decode one escape sequence inside a JSON string literal (the
character after the backslash has been split off).  `\u` escapes are
outside the modelled fragment. -/
def unescapeJsonChar (c : Char) : Option Char :=
  if c = '"' then some '"'
  else if c = '\\' then some '\\'
  else if c = '/' then some '/'
  else if c = 'n' then some '\n'
  else if c = 'r' then some '\r'
  else if c = 't' then some '\t'
  else if c = 'b' then some '\x08'
  else if c = 'f' then some '\x0c'
  else none

mutual

/-- Modelled from the spec: JavaScript `JSON.parse` (recursive descent,
fuel-bounded) restricted to `null`, strings and arrays.  Returns the
parsed value and the unconsumed remainder. -/
def parseVal : Nat → List Char → Option (JVal × List Char)
  | 0, _ => none
  | _ + 1, 'n' :: 'u' :: 'l' :: 'l' :: rest => some (.null, rest)
  | fuel + 1, '"' :: rest =>
    match parseStringBody fuel rest with
    | some (s, rest') => some (.str s, rest')
    | none => none
  | fuel + 1, '[' :: rest =>
    match skipWs rest with
    | ']' :: rest' => some (.arr [], rest')
    | other =>
      match parseElems fuel other with
      | some (es, rest') => some (.arr es, rest')
      | none => none
  | _ + 1, _ => none

/-- Parse the body of a JSON string literal (opening quote consumed). -/
def parseStringBody : Nat → List Char → Option (List Char × List Char)
  | 0, _ => none
  | _ + 1, [] => none
  | fuel + 1, c :: rest =>
    if c = '"' then some ([], rest)
    else if c = '\\' then
      match rest with
      | [] => none
      | e :: rest' =>
        match unescapeJsonChar e with
        | some d =>
          match parseStringBody fuel rest' with
          | some (s, rest'') => some (d :: s, rest'')
          | none => none
        | none => none
    else
      match parseStringBody fuel rest with
      | some (s, rest') => some (c :: s, rest')
      | none => none

/-- Parse the non-empty element list of a JSON array, consuming the
closing bracket. -/
def parseElems : Nat → List Char → Option (List JVal × List Char)
  | 0, _ => none
  | fuel + 1, cs =>
    match parseVal fuel cs with
    | none => none
    | some (v, rest) =>
      match skipWs rest with
      | ',' :: rest' =>
        match parseElems fuel (skipWs rest') with
        | some (es, rest'') => some (v :: es, rest'')
        | none => none
      | ']' :: rest' => some ([v], rest')
      | _ => none

end

/-- Modelled from the spec: `JSON.parse` of a whole chunk; `none` models
a thrown `SyntaxError`. -/
def jsonParse (cs : List Char) : Option JVal :=
  match parseVal (cs.length + 1) (skipWs cs) with
  | some (v, rest) => if skipWs rest = [] then some v else none
  | none => none

/-- A transformation function (`TransformationFunction`, src/core.js
lines 150-155): receives a JavaScript value, returns one or throws.
Synchronous and asynchronous completion are identified. -/
def TransFn : Type := JVal → Except Thrown JVal

/-- An error-recovery function (`TransformationErrorFunction`,
src/core.js lines 157-164): receives the original input, the thrown
error, and the transformation function itself. -/
def ErrFn : Type := JVal → Thrown → TransFn → Except Thrown JVal

/-- The `handleHeaders` option (src/core.js lines 169-174): a boolean,
a replacement array, or a dedicated header transformation function. -/
inductive HandleHeaders where
  | flag : Bool → HandleHeaders
  | replacement : List JVal → HandleHeaders
  | func : TransFn → HandleHeaders

/-- `CSVTransformerOptions` after the `??=` defaulting of the
constructor (src/core.js lines 228-233). -/
structure Opts where
  handleHeaders : HandleHeaders := .flag false
  rawInput : Bool := false
  rawOutput : Bool := false
  onError : Option ErrFn := none
  maxBatchSize : Nat := 1
  maxConcurrent : Nat := 1

/-- `CSVTransformer.#wrappedFn` (src/core.js lines 252-257): call `fn`;
if it throws and `onError` is configured, call `onError` with the
original input, the error, and `fn` itself. -/
def wrappedFn (fn : TransFn) (onError : Option ErrFn) (row : JVal) : Except Thrown JVal :=
  match onError with
  | none => fn row
  | some h =>
    match fn row with
    | .ok v => .ok v
    | .error e => h row e fn

/-- `CSVTransformer.#wrappedHeaderFn` (src/core.js lines 239-250).
The second component records the inputs passed to the main
transformation function `fn` (non-empty only for `handleHeaders: true`). -/
def wrappedHeaderFn (o : Opts) (fn : TransFn) (row : JVal) :
    Except Thrown JVal × List (List JVal) :=
  match o.handleHeaders with
  | .flag b => if b then (wrappedFn fn o.onError row, [[row]]) else (.ok row, [])
  | .replacement a => (.ok (.arr a), [])
  | .func h =>
    match o.onError with
    | none => (h row, [])
    | some oe =>
      match h row with
      | .ok v => (.ok v, [])
      | .error e => (oe row e h, [])

/-- `CSVTransformer.#enqueueRow` (src/core.js lines 259-272): the chunks
enqueued downstream for one effective output value.  `null` (or
`undefined`) emits nothing; with `rawOutput`, or for a string, the value
passes through unchanged; an array of arrays is unpacked into one
serialized chunk per sub-array; anything else is serialized as one
chunk. -/
def enqueueRow (rawOutput : Bool) (row : JVal) : List JVal :=
  match row with
  | .null => []
  | .str s => [.str s]
  | .arr es =>
    if rawOutput then [.arr es]
    else
      match es with
      | .arr r :: rest => (JVal.arr r :: rest).map fun r' => .str (jsonStringify r')
      | _ => [.str (jsonStringify (.arr es))]

/-- `new Error(reason)` applied to a rejection reason that is not an
`Error` instance (src/core.js lines 280-285). -/
def normalizeThrown : Thrown → Thrown
  | .errObj m => .errObj m
  | .nonError v => .errObj (jsCoerceString v)

/-- `CSVTransformer.#enqueueConcurrent` (src/core.js lines 274-291):
walk the settled results in submission order; enqueue the output chunks
of each fulfilled result; at the first rejected result, propagate its
reason (wrapped into an `Error` if it is not one) as a fatal stream
error.  Returns the chunks enqueued before any failure, and the fatal
error if one occurred. -/
def enqueueConcurrent (rawOutput : Bool) :
    List (Except Thrown JVal) → List JVal × Option Thrown
  | [] => ([], none)
  | .ok v :: rest =>
    let p := enqueueConcurrent rawOutput rest
    (enqueueRow rawOutput v ++ p.1, p.2)
  | .error e :: _ => ([], some (normalizeThrown e))

/-- The private mutable state of a `CSVTransformer` between chunks
(`#concurrent`, `#batch`, `#firstChunk`, src/core.js lines 197-199).
Because the embedding is synchronous, each pending invocation in
`#concurrent` is stored as its settled result. -/
instance {ε α : Type} [DecidableEq ε] [DecidableEq α] : DecidableEq (Except ε α) := fun x y =>
  match x, y with
  | .ok a, .ok b =>
    if h : a = b then .isTrue (by rw [h]) else .isFalse fun hc => h (Except.ok.inj hc)
  | .error a, .error b =>
    if h : a = b then .isTrue (by rw [h]) else .isFalse fun hc => h (Except.error.inj hc)
  | .ok _, .error _ => .isFalse fun hc => Except.noConfusion hc
  | .error _, .ok _ => .isFalse fun hc => Except.noConfusion hc

structure TState where
  concurrent : List (Except Thrown JVal)
  batch : List JVal
  firstChunk : Bool
deriving DecidableEq

/-- The state of a freshly constructed `CSVTransformer`. -/
def initTrans : TState := ⟨[], [], true⟩

/-- The observable effect of one transformer callback: the chunks
enqueued downstream, the inputs passed to the transformation function
(one entry per invocation, as the list of rows that invocation
received), the fatal stream error if any, and the state left behind. -/
structure StepOut where
  outs : List JVal
  calls : List (List JVal)
  fatal : Option Thrown
  st : TState
deriving DecidableEq

/-- `row = rawInput ? chunk : JSON.parse(chunk)` (src/core.js line 295);
`none` models `JSON.parse` throwing. -/
def rowParse (o : Opts) (chunk : List Char) : Option JVal :=
  if o.rawInput then some (.str chunk) else jsonParse chunk

/-- `CSVTransformer.#transform` (src/core.js lines 293-318) for one
incoming chunk. -/
def tTransform (o : Opts) (fn : TransFn) (st : TState) (chunk : List Char) : StepOut :=
  match rowParse o chunk with
  | none => ⟨[], [], some (.errObj "SyntaxError".toList), st⟩
  | some row =>
    if st.firstChunk then
      let h := wrappedHeaderFn o fn row
      match h.1 with
      | .ok out => ⟨enqueueRow o.rawOutput out, h.2, none, ⟨st.concurrent, st.batch, false⟩⟩
      | .error e => ⟨[], h.2, some e, ⟨st.concurrent, st.batch, false⟩⟩
    else
      let submitted :=
        if 1 < o.maxBatchSize then
          let b := st.batch ++ [row]
          if b.length = o.maxBatchSize then
            (st.concurrent ++ [wrappedFn fn o.onError (.arr b)], [b], ([] : List JVal))
          else
            (st.concurrent, [], b)
        else
          (st.concurrent ++ [wrappedFn fn o.onError row], [[row]], st.batch)
      if submitted.1.length = o.maxConcurrent then
        let p := enqueueConcurrent o.rawOutput submitted.1
        ⟨p.1, submitted.2.1, p.2, ⟨[], submitted.2.2, false⟩⟩
      else
        ⟨[], submitted.2.1, none, ⟨submitted.1, submitted.2.2, false⟩⟩

/-- `CSVTransformer.#flush` (src/core.js lines 320-327): submit a
partially filled batch if one remains, then drain the concurrency group
if it is non-empty.  (`#enqueueConcurrent` clears `#concurrent` even
when it propagates an error; `#batch` is not cleared by `#flush`.) -/
def tFlush (o : Opts) (fn : TransFn) (st : TState) : StepOut :=
  let submitted :=
    if st.batch.length > 0 then
      (st.concurrent ++ [wrappedFn fn o.onError (.arr st.batch)], [st.batch])
    else
      (st.concurrent, [])
  if submitted.1.length > 0 then
    let p := enqueueConcurrent o.rawOutput submitted.1
    ⟨p.1, submitted.2, p.2, ⟨[], st.batch, st.firstChunk⟩⟩
  else
    ⟨[], submitted.2, none, ⟨[], st.batch, st.firstChunk⟩⟩

/-- Feed a list of chunks to `#transform` one at a time; a fatal error
aborts the stream (no further chunks are processed). -/
def runChunksT (o : Opts) (fn : TransFn) (st : TState) : List (List Char) → StepOut
  | [] => ⟨[], [], none, st⟩
  | c :: rest =>
    let p := tTransform o fn st c
    match p.fatal with
    | some e => ⟨p.outs, p.calls, some e, p.st⟩
    | none =>
      let q := runChunksT o fn p.st rest
      ⟨p.outs ++ q.outs, p.calls ++ q.calls, q.fatal, q.st⟩

/-- A whole `CSVTransformer` run: process every chunk, then flush. -/
def runTransformer (o : Opts) (fn : TransFn) (chunks : List (List Char)) : StepOut :=
  let p := runChunksT o fn initTrans chunks
  match p.fatal with
  | some _ => p
  | none =>
    let q := tFlush o fn p.st
    ⟨p.outs ++ q.outs, p.calls ++ q.calls, q.fatal, q.st⟩

/-- The batching discipline of `#transform` in isolation: starting from
batch buffer `b`, return the batches submitted for a list of incoming
rows (in submission order) and the leftover partial batch. -/
def batchRun (N : Nat) (b : List JVal) : List JVal → List (List JVal) × List JVal
  | [] => ([], b)
  | r :: rest =>
    if 1 < N then
      let b' := b ++ [r]
      if b'.length = N then
        let p := batchRun N [] rest
        (b' :: p.1, p.2)
      else batchRun N b' rest
    else
      let p := batchRun N b rest
      ([r] :: p.1, p.2)

/-- All invocation inputs for a list of data rows, including the
end-of-input flush of a partial batch. -/
def submissionsOf (N : Nat) (rows : List JVal) : List (List JVal) :=
  let p := batchRun N [] rows
  p.1 ++ if p.2 = [] then [] else [p.2]

/-- The JavaScript argument passed to the transformation function for
one submission: the batch array itself when batching is active, the
bare row otherwise. -/
def callArg (N : Nat) (b : List JVal) : JVal :=
  if 1 < N then .arr b else b.headD .null

/-- The input text with every byte-order-mark character removed. -/
def stripBOM (t : List Char) : List Char :=
  t.filter fun c => c ≠ '\uFEFF'

/-- Does this parsed row begin with a nested array?  (`#enqueueRow`
unpacks such a value into several chunks.) -/
def headIsArr : List JVal → Bool
  | .arr _ :: _ => true
  | _ => false

/-- The parsed row of each chunk (`JSON.parse`, or the raw chunk string
with `rawInput`). -/
def rowsOf (o : Opts) (chunks : List (List Char)) : List JVal :=
  chunks.map fun c => (rowParse o c).getD .null

/-- Running the state machine over a concatenation is running it over
the pieces in sequence: the parse state carries across the boundary. -/
theorem runChars_append (a b : List Char) (s : ReaderState) :
    runChars s (a ++ b) =
      ((runChars (runChars s a).1 b).1,
        (runChars s a).2 ++ (runChars (runChars s a).1 b).2) := by
  induction a generalizing s with
  | nil => simp [runChars]
  | cons c rest ih =>
    simp only [List.cons_append, runChars, List.append_eq]
    rw [ih]
    simp [List.append_assoc]

/-- The fold inside `decodeChunks` computes `runChars` of the flattened
chunk list, with the output accumulator prepended. -/
theorem foldChunks_eq (chunks : List (List Char)) (s : ReaderState)
    (out0 : List (List (List Char))) :
    chunks.foldl
      (fun acc ch =>
        let q := runChars acc.1 ch
        (q.1, acc.2 ++ q.2))
      (s, out0) =
    ((runChars s chunks.flatten).1, out0 ++ (runChars s chunks.flatten).2) := by
  induction chunks generalizing s out0 with
  | nil => simp [runChars]
  | cons ch rest ih =>
    simp only [List.foldl_cons, List.flatten_cons, ih, runChars_append, List.append_assoc]

/-- C2: chunk-boundary invariance.  For every input text and every way
of splitting it into a sequence of chunks (the chunk list, whose
concatenation is the text), feeding the chunks one by one to the
decoder's per-chunk transform and then finalizing yields the same row
sequence as feeding the whole text as one single chunk. -/
theorem chunk_boundary_invariance (chunks : List (List Char)) :
    decodeChunks chunks = decodeCSV chunks.flatten := by
  unfold decodeChunks decodeCSV
  rw [foldChunks_eq]
  simp

/-- Dropping the trailing comma of the field-comma concatenation is the
comma-join of the per-field texts. -/
theorem dropLast_flatMap_comma (g : List Char → List Char) :
    ∀ arr : List (List Char),
      (arr.flatMap fun f => g f ++ [',']).dropLast = specJoinComma (arr.map g)
  | [] => by simp [specJoinComma]
  | [f] => by
    simp [specJoinComma, List.dropLast_concat]
  | f :: fr :: rest => by
    have h : ((fr :: rest).flatMap fun f => g f ++ [',']) ≠ [] := by
      simp [List.flatMap_cons]
    rw [List.flatMap_cons, List.dropLast_append_of_ne_nil _ h,
      dropLast_flatMap_comma g (fr :: rest)]
    simp [specJoinComma]

/-- C3: encoder contract.  `arrayToCSVString` emits each field that
matches `/[,"\r\n]/` wrapped in double quotes with internal quotes
doubled, every other field verbatim, joins the fields with commas and
terminates with CRLF (the spec-side restatement `specEncodeRow`); in
particular the row `["a,bc", "12\"3"]` encodes to exactly
`"a,bc","12""3"` followed by CRLF. -/
theorem encoder_contract :
    (∀ arr, arrayToCSVString arr = specEncodeRow arr) ∧
    arrayToCSVString ["a,bc".toList, "12\"3".toList] = "\"a,bc\",\"12\"\"3\"\r\n".toList := by
  constructor
  · intro arr
    unfold arrayToCSVString specEncodeRow
    rw [dropLast_flatMap_comma]
    rfl
  · decide

/-- A comma in normal mode terminates the field, whatever the
`justExited` flag and the last character were. -/
theorem step_comma (row : List (List Char)) (field : List Char) (lastChar : Option Char)
    (jex : Bool) :
    step ⟨row, field, lastChar, false, jex⟩ ',' =
      (⟨row ++ [field], [], some ',', false, false⟩, none) := by
  simp [step]

/-- A carriage return in normal mode is ignored, whatever the
`justExited` flag and the last character were. -/
theorem step_cr (row : List (List Char)) (field : List Char) (lastChar : Option Char)
    (jex : Bool) :
    step ⟨row, field, lastChar, false, jex⟩ '\r' =
      (⟨row, field, some '\r', false, false⟩, none) := by
  simp [step]

/-- A line feed in normal mode emits the current row and resets the
buffers, whatever the `justExited` flag and the last character were. -/
theorem step_lf (row : List (List Char)) (field : List Char) (lastChar : Option Char)
    (jex : Bool) :
    step ⟨row, field, lastChar, false, jex⟩ '\n' =
      (⟨[], [], some '\n', false, false⟩, some (row ++ [field])) := by
  simp [step]

/-- In normal mode with `justExited` clear, an ordinary character (not a
quote, comma, CR, LF or BOM) is appended to the field. -/
theorem step_plain (row : List (List Char)) (field : List Char) (lastChar : Option Char)
    (c : Char) (h1 : c ≠ '"') (h2 : c ≠ '\r') (h3 : c ≠ '\uFEFF') (h4 : c ≠ ',')
    (h5 : c ≠ '\n') :
    step ⟨row, field, lastChar, false, false⟩ c =
      (⟨row, field ++ [c], some c, false, false⟩, none) := by
  simp [step, h1, h2, h3, h4, h5]

/-- Processing an unquoted encoder output field (no comma, quote, CR, LF
and no BOM) from normal mode appends it verbatim to the field buffer and
emits nothing. -/
theorem runChars_plain (f : List Char) :
    ∀ (row : List (List Char)) (field : List Char) (lastChar : Option Char),
      needsQuote f = false → '\uFEFF' ∉ f →
      ∃ lc, runChars ⟨row, field, lastChar, false, false⟩ f =
        (⟨row, field ++ f, lc, false, false⟩, []) := by
  induction f with
  | nil => exact fun row field lastChar _ _ => ⟨lastChar, by simp [runChars]⟩
  | cons c rest ih =>
    intro row field lastChar hq hb
    simp only [needsQuote, List.any_cons, Bool.or_eq_false_iff, decide_eq_false_iff_not] at hq
    obtain ⟨hc, hrest⟩ := hq
    push_neg at hc
    obtain ⟨h1, h2, h3, h4⟩ := hc
    have hb1 : c ≠ '\uFEFF' := fun h => hb (h ▸ List.mem_cons_self c rest)
    have hb2 : '\uFEFF' ∉ rest := fun h => hb (List.mem_cons_of_mem c h)
    obtain ⟨lc, hrec⟩ := ih row (field ++ [c]) (some c) hrest hb2
    refine ⟨lc, ?_⟩
    simp only [runChars, step_plain row field lastChar c h2 h3 hb1 h1 h4, hrec,
      Option.toList_none, List.nil_append, List.append_assoc, List.cons_append,
      List.nil_append]

/-- Processing the quote-doubled body of a quoted field while in escape
mode appends the original field content and stays in escape mode. -/
theorem runChars_escaped (f : List Char) :
    ∀ (row : List (List Char)) (field : List Char) (lastChar : Option Char),
      ∃ lc, runChars ⟨row, field, lastChar, true, false⟩ (escapeQuotes f) =
        (⟨row, field ++ f, lc, true, false⟩, []) := by
  induction f with
  | nil => exact fun row field lastChar => ⟨lastChar, by simp [runChars, escapeQuotes]⟩
  | cons c rest ih =>
    intro row field lastChar
    by_cases hc : c = '"'
    · subst hc
      obtain ⟨lc, hrec⟩ := ih row (field ++ ['"']) (some '"')
      refine ⟨lc, ?_⟩
      have hexp : escapeQuotes ('"' :: rest) = '"' :: '"' :: escapeQuotes rest := by
        simp [escapeQuotes]
      have hstep1 : step ⟨row, field, lastChar, true, false⟩ '"' =
          (⟨row, field, some '"', false, true⟩, none) := by simp [step]
      have hstep2 : step ⟨row, field, some '"', false, true⟩ '"' =
          (⟨row, field ++ ['"'], some '"', true, false⟩, none) := by simp [step]
      rw [hexp]
      simp [runChars, hstep1, hstep2, hrec, List.append_assoc]
    · obtain ⟨lc, hrec⟩ := ih row (field ++ [c]) (some c)
      refine ⟨lc, ?_⟩
      have hexp : escapeQuotes (c :: rest) = c :: escapeQuotes rest := by
        simp [escapeQuotes, hc]
      have hstep : step ⟨row, field, lastChar, true, false⟩ c =
          (⟨row, field ++ [c], some c, true, false⟩, none) := by simp [step, hc]
      rw [hexp]
      simp [runChars, hstep, hrec, List.append_assoc]

/-- Processing a fully quoted encoder output field from normal mode
(after a field start: last character a comma or nothing yet) appends the
original field content, emits nothing, and leaves the machine in normal
mode with the `justExited` flag set. -/
theorem runChars_quoted (f : List Char) (row : List (List Char)) (field : List Char)
    (lastChar : Option Char) (hlc : lastChar = some ',' ∨ lastChar = none) :
    runChars ⟨row, field, lastChar, false, false⟩ ('"' :: (escapeQuotes f ++ ['"'])) =
      (⟨row, field ++ f, some '"', false, true⟩, []) := by
  have hopen : step ⟨row, field, lastChar, false, false⟩ '"' =
      (⟨row, field, some '"', true, false⟩, none) := by
    rcases hlc with h | h <;> subst h <;> simp [step]
  obtain ⟨lc, hbody⟩ := runChars_escaped f row field (some '"')
  have hclose : step ⟨row, field ++ f, lc, true, false⟩ '"' =
      (⟨row, field ++ f, some '"', false, true⟩, none) := by simp [step]
  simp only [runChars, hopen]
  rw [runChars_append]
  simp [hbody, runChars, hclose]

/-- Processing one encoder output field from a field-start state appends
the decoded field content and emits nothing, provided the field either
needed quoting or contains no BOM. -/
theorem runChars_encodeField (f : List Char) (row : List (List Char)) (field : List Char)
    (lastChar : Option Char)
    (hgood : needsQuote f = true ∨ '\uFEFF' ∉ f)
    (hlc : lastChar = some ',' ∨ lastChar = none) :
    ∃ lc jex, runChars ⟨row, field, lastChar, false, false⟩ (encodeField f) =
      (⟨row, field ++ f, lc, false, jex⟩, []) := by
  by_cases hq : needsQuote f
  · refine ⟨some '"', true, ?_⟩
    rw [encodeField, if_pos hq]
    exact runChars_quoted f row field lastChar hlc
  · obtain ⟨lc, h⟩ := runChars_plain f row field lastChar (by simpa using hq)
      (hgood.resolve_left hq)
    exact ⟨lc, false, by rw [encodeField, if_neg hq]; exact h⟩

/-- Processing a whole encoded record (comma-joined encoded fields plus
CRLF) from a row-start state emits exactly the accumulated row extended
by the record's fields, and leaves the machine in the post-newline
state. -/
theorem runChars_encodeRow :
    ∀ fs : List (List Char), fs ≠ [] →
      (∀ f ∈ fs, needsQuote f = true ∨ '\uFEFF' ∉ f) →
      ∀ (row : List (List Char)) (lastChar : Option Char),
        lastChar = some ',' ∨ lastChar = none →
        runChars ⟨row, [], lastChar, false, false⟩
          (specJoinComma (fs.map encodeField) ++ ['\r', '\n']) =
        (⟨[], [], some '\n', false, false⟩, [row ++ fs])
  | [], h, _ => absurd rfl h
  | [f], _, hgood => by
    intro row lastChar hlc
    obtain ⟨lc, jex, hfield⟩ :=
      runChars_encodeField f row [] lastChar (hgood f (List.mem_singleton.mpr rfl)) hlc
    simp only [List.map_cons, List.map_nil, specJoinComma]
    rw [runChars_append]
    simp [hfield, runChars, step_cr, step_lf]
  | f :: fr :: rest, _, hgood => by
    intro row lastChar hlc
    obtain ⟨lc, jex, hfield⟩ :=
      runChars_encodeField f row [] lastChar (hgood f (List.mem_cons_self f _)) hlc
    have hrec := runChars_encodeRow (fr :: rest) (by simp)
      (fun g hg => hgood g (List.mem_cons_of_mem f hg)) (row ++ [f]) (some ',')
      (Or.inl rfl)
    have hshape : specJoinComma ((f :: fr :: rest).map encodeField) ++ ['\r', '\n'] =
        encodeField f ++
          (',' :: (specJoinComma ((fr :: rest).map encodeField) ++ ['\r', '\n'])) := by
      simp [specJoinComma]
    rw [hshape, runChars_append]
    simp only [hfield, List.nil_append]
    have hcm := step_comma row f lc jex
    simp only [List.map_cons] at hrec
    simp only [runChars, hcm, Option.toList_none, List.nil_append, List.map_cons]
    rw [hrec]
    simp

/-- C1 (amended): round-trip.  For every non-empty row of string fields
in which each field either contains one of comma, double-quote, CR, LF
(and is therefore quoted on output) or contains no byte-order-mark
character, decoding the string produced by encoding the row yields
exactly that row back.  (The amendment excludes only unquoted fields
containing U+FEFF, which the decoder strips; see the counterexample.) -/
theorem roundtrip_decode_encode (row : List (List Char)) (hne : row ≠ [])
    (hgood : ∀ f ∈ row, needsQuote f = true ∨ '\uFEFF' ∉ f) :
    decodeCSV (arrayToCSVString row) = [row] := by
  unfold decodeCSV arrayToCSVString initReader
  rw [dropLast_flatMap_comma encodeField row,
    runChars_encodeRow row hne hgood [] none (Or.inr rfl)]
  simp [flushReader]

/-- C1, counterexample to the claim as stated: the single-field row
whose field is just the byte-order-mark character consists of characters
outside `,"\r\n`, yet does not round-trip: the decoder drops the BOM and
returns the row containing one empty field. -/
theorem roundtrip_counterexample :
    decodeCSV (arrayToCSVString [['\uFEFF']]) = [[[]]] ∧
    decodeCSV (arrayToCSVString [['\uFEFF']]) ≠ [[['\uFEFF']]] := by
  constructor
  · decide
  · decide

/-- C1, witness: the amended round-trip theorem applied to the concrete
row `["a", "b\"c", "d,e"]`. -/
theorem roundtrip_witness :
    (([['a'], ['b', '"', 'c'], ['d', ',', 'e']] : List (List Char)) ≠ [] ∧
      ∀ f ∈ ([['a'], ['b', '"', 'c'], ['d', ',', 'e']] : List (List Char)),
        needsQuote f = true ∨ '\uFEFF' ∉ f) ∧
    decodeCSV (arrayToCSVString [['a'], ['b', '"', 'c'], ['d', ',', 'e']]) =
      [[['a'], ['b', '"', 'c'], ['d', ',', 'e']]] :=
  ⟨⟨by decide, by decide⟩,
    roundtrip_decode_encode [['a'], ['b', '"', 'c'], ['d', ',', 'e']] (by decide) (by decide)⟩

/-- C5 (amended): decoder finalization.  (1) If at end of input the
field buffer is non-empty or the row buffer is non-empty, the final
field is pushed and the final row is emitted.  (2) Fully empty input
yields exactly one row containing one empty field.  (3) If the input
ends with a line feed and the machine is not inside a quoted field at
end of input, finalization emits nothing further.  (The amendment adds
the not-inside-a-quoted-field proviso to (3): a line feed inside an
unterminated quoted field is field content, and finalization then emits
the buffered row; see the counterexample.) -/
theorem decoder_finalization :
    (∀ s : ReaderState, s.field ≠ [] ∨ s.row ≠ [] → flushReader s = [s.row ++ [s.field]]) ∧
    decodeCSV [] = [[[]]] ∧
    (∀ t : List Char, (runChars initReader (t ++ ['\n'])).1.escapeMode = false →
      flushReader (runChars initReader (t ++ ['\n'])).1 = []) := by
  refine ⟨fun s h => ?_, by decide, fun t hesc => ?_⟩
  · obtain ⟨row, field, lastChar, esc, jex⟩ := s
    simp only [flushReader]
    rw [if_pos]
    exact h
  · rw [runChars_append] at hesc ⊢
    rcases hu : (runChars initReader t).1 with ⟨row, field, lastChar, esc, jex⟩
    cases esc
    · simp [runChars, step_lf, flushReader]
    · rw [hu] at hesc
      simp [runChars, step] at hesc

/-- C5, witness: part (1) at a state with a buffered field and row, and
part (3) at the input `"a\n"`. -/
theorem decoder_finalization_witness :
    flushReader ⟨[['a']], ['b'], some 'b', false, false⟩ = [[['a'], ['b']]] ∧
    ((runChars initReader (['a'] ++ ['\n'])).1.escapeMode = false ∧
      flushReader (runChars initReader (['a'] ++ ['\n'])).1 = []) :=
  ⟨decoder_finalization.1 ⟨[['a']], ['b'], some 'b', false, false⟩ (by decide),
    by decide, decoder_finalization.2.2 ['a'] (by decide)⟩

/-- C5, counterexample to the claim as stated: the input `"a\n` ends
with a line feed, yet finalization emits a further row (the line feed
was consumed inside an unterminated quoted field, so the field buffer is
non-empty at end of input). -/
theorem decoder_finalization_counterexample :
    decodeCSV ['"', 'a', '\n'] = [[['a', '\n']]] ∧
    flushReader (runChars initReader ['"', 'a', '\n']).1 ≠ [] := by
  exact ⟨by decide, by decide⟩

/-- Every step records the character just processed as `lastChar`. -/
theorem step_lastChar (s : ReaderState) (c : Char) : (step s c).1.lastChar = some c := by
  obtain ⟨r, f, l, e, j⟩ := s
  simp only [step]
  split_ifs <;> rfl

/-- After a non-empty input, `lastChar` is some character. -/
theorem runChars_lastChar :
    ∀ (t : List Char) (s : ReaderState), t ≠ [] → ∃ c, (runChars s t).1.lastChar = some c
  | [], _, h => absurd rfl h
  | [c], s, _ => ⟨c, by simp [runChars, step_lastChar]⟩
  | c :: d :: rest, s, _ => by
    obtain ⟨e, he⟩ := runChars_lastChar (d :: rest) (step s c).1 (by simp)
    exact ⟨e, by simpa [runChars] using he⟩

/-- `flushReader` does not depend on the flags, nor on `lastChar` as
long as some character has been seen. -/
theorem flushReader_lastChar_irrel (row : List (List Char)) (field : List Char)
    (a b : Char) (e₁ e₂ j₁ j₂ : Bool) :
    flushReader ⟨row, field, some a, e₁, j₁⟩ = flushReader ⟨row, field, some b, e₂, j₂⟩ := by
  simp [flushReader]

/-- Coupling: on quote-free input, the runs over a text and over its
BOM-stripped text produce the same output rows and the same row/field
buffers; only `lastChar` may differ. -/
theorem runChars_bom_coupling :
    ∀ (t : List Char) (row : List (List Char)) (field : List Char) (lc₁ lc₂ : Option Char),
      '"' ∉ t →
      ∃ row' field' out lc₁' lc₂',
        runChars ⟨row, field, lc₁, false, false⟩ t =
          (⟨row', field', lc₁', false, false⟩, out) ∧
        runChars ⟨row, field, lc₂, false, false⟩ (stripBOM t) =
          (⟨row', field', lc₂', false, false⟩, out)
  | [], row, field, lc₁, lc₂, _ =>
    ⟨row, field, [], lc₁, lc₂, by simp [runChars], by simp [runChars, stripBOM]⟩
  | c :: rest, row, field, lc₁, lc₂, hq => by
    have hcq : c ≠ '"' := fun h => hq (h ▸ List.mem_cons_self c rest)
    have hrq : '"' ∉ rest := fun h => hq (List.mem_cons_of_mem c h)
    by_cases hbom : c = '\uFEFF'
    · subst hbom
      obtain ⟨row', field', out, lc₁', lc₂', h1, h2⟩ :=
        runChars_bom_coupling rest row field (some '\uFEFF') lc₂ hrq
      refine ⟨row', field', out, lc₁', lc₂', ?_, ?_⟩
      · have hstep : step ⟨row, field, lc₁, false, false⟩ '\uFEFF' =
            (⟨row, field, some '\uFEFF', false, false⟩, none) := by simp [step]
        simp [runChars, hstep, h1]
      · have hsp : stripBOM ('\uFEFF' :: rest) = stripBOM rest := by simp [stripBOM]
        rw [hsp, h2]
    · have hsplit : stripBOM (c :: rest) = c :: stripBOM rest := by simp [stripBOM, hbom]
      by_cases hr : c = '\r'
      · subst hr
        obtain ⟨row', field', out, lc₁', lc₂', h1, h2⟩ :=
          runChars_bom_coupling rest row field (some '\r') (some '\r') hrq
        exact ⟨row', field', out, lc₁', lc₂', by simp [runChars, step_cr, h1],
          by rw [hsplit]; simp [runChars, step_cr, h2]⟩
      · by_cases hcm : c = ','
        · subst hcm
          obtain ⟨row', field', out, lc₁', lc₂', h1, h2⟩ :=
            runChars_bom_coupling rest (row ++ [field]) [] (some ',') (some ',') hrq
          exact ⟨row', field', out, lc₁', lc₂', by simp [runChars, step_comma, h1],
            by rw [hsplit]; simp [runChars, step_comma, h2]⟩
        · by_cases hn : c = '\n'
          · subst hn
            obtain ⟨row', field', out, lc₁', lc₂', h1, h2⟩ :=
              runChars_bom_coupling rest [] [] (some '\n') (some '\n') hrq
            exact ⟨row', field', (row ++ [field]) :: out, lc₁', lc₂',
              by simp [runChars, step_lf, h1],
              by rw [hsplit]; simp [runChars, step_lf, h2]⟩
          · obtain ⟨row', field', out, lc₁', lc₂', h1, h2⟩ :=
              runChars_bom_coupling rest row (field ++ [c]) (some c) (some c) hrq
            refine ⟨row', field', out, lc₁', lc₂',
              by simp [runChars, step_plain row field lc₁ c hcq hr hbom hcm hn, h1], ?_⟩
            rw [hsplit]
            simp [runChars, step_plain row field lc₂ c hcq hr hbom hcm hn, h2]

/-- C4 (amended): BOM transparency.  For every input text that contains
no double-quote character and is not a non-empty all-BOM text, decoding
the text yields the same row sequence as decoding the text with all
byte-order-mark characters removed.  (The amendment restricts the claim
to such texts: a BOM is preserved literally inside a quoted field, a BOM
immediately before an opening quote makes the quote literal because the
BOM still updates the last-seen character, and an all-BOM input
suppresses the empty-input row; see the counterexample.) -/
theorem bom_transparency (t : List Char) (hq : '"' ∉ t)
    (hne : stripBOM t = [] → t = []) :
    decodeCSV t = decodeCSV (stripBOM t) := by
  by_cases ht : t = []
  · subst ht
    rfl
  · have hs : stripBOM t ≠ [] := fun h => ht (hne h)
    obtain ⟨row', field', out, lc₁', lc₂', h1, h2⟩ :=
      runChars_bom_coupling t [] [] none none hq
    obtain ⟨a, ha⟩ := runChars_lastChar t initReader ht
    obtain ⟨b, hb⟩ := runChars_lastChar (stripBOM t) initReader hs
    unfold initReader at ha hb
    unfold decodeCSV initReader
    rw [h1] at ha ⊢
    rw [h2] at hb ⊢
    simp only at ha hb
    subst ha
    subst hb
    simp only
    rw [flushReader_lastChar_irrel row' field' a b false false false false]

/-- C4, counterexample to the claim as stated: a BOM as the only
character of the input makes the decoder emit nothing while the empty
input emits one row with one empty field, and a BOM immediately before
an opening double-quote turns that quote into a literal character. -/
theorem bom_transparency_counterexample :
    (decodeCSV ['\uFEFF'] = [] ∧ decodeCSV (stripBOM ['\uFEFF']) = [[[]]]) ∧
    decodeCSV ['\uFEFF', '"', 'a', '"'] = [[['"', 'a', '"']]] ∧
    decodeCSV (stripBOM ['\uFEFF', '"', 'a', '"']) = [[['a']]] := by
  refine ⟨⟨?_, ?_⟩, ?_, ?_⟩ <;> decide

/-- C4, witness: the amended theorem applied to the quote-free text
`a﻿b,c` (with an interior BOM). -/
theorem bom_transparency_witness :
    ('"' ∉ ['a', '\uFEFF', 'b', ',', 'c'] ∧
      (stripBOM ['a', '\uFEFF', 'b', ',', 'c'] = [] → ['a', '\uFEFF', 'b', ',', 'c'] = [])) ∧
    decodeCSV ['a', '\uFEFF', 'b', ',', 'c'] = decodeCSV (stripBOM ['a', '\uFEFF', 'b', ',', 'c']) :=
  ⟨⟨by decide, by decide⟩, bom_transparency ['a', '\uFEFF', 'b', ',', 'c'] (by decide) (by decide)⟩

/-- C7: error recovery contract.  (1) When the transformation function
throws and `onError` is configured, `onError` is called with exactly the
original input, the thrown error, and the transformation function
itself, and its return value becomes the effective output.  (2) Without
`onError` the failure passes through the wrapper unchanged.  (3) When a
settled group contains a rejection, the error propagates as the fatal
stream error after the fulfilled results submitted before it, with a
non-`Error` rejection reason wrapped into an `Error` (4)-(5). -/
theorem error_recovery_contract :
    (∀ (fn : TransFn) (h : ErrFn) (row : JVal) (e : Thrown),
        fn row = .error e → wrappedFn fn (some h) row = h row e fn) ∧
    (∀ (fn : TransFn) (row : JVal) (e : Thrown),
        fn row = .error e → wrappedFn fn none row = .error e) ∧
    (∀ (ro : Bool) (pre : List JVal) (e : Thrown) (post : List (Except Thrown JVal)),
        enqueueConcurrent ro (pre.map .ok ++ .error e :: post) =
          ((pre.map (enqueueRow ro)).flatten, some (normalizeThrown e))) ∧
    (∀ v, normalizeThrown (.nonError v) = .errObj (jsCoerceString v)) ∧
    (∀ m, normalizeThrown (.errObj m) = .errObj m) := by
  refine ⟨fun fn h row e he => ?_, fun fn row e he => ?_, fun ro pre e post => ?_,
    fun v => rfl, fun m => rfl⟩
  · simp [wrappedFn, he]
  · simp [wrappedFn, he]
  · induction pre with
    | nil => simp [enqueueConcurrent]
    | cons v rest ih => simp [enqueueConcurrent, ih]

/-- C7, witness: the contract applied to a function that always rejects
with the non-`Error` value `"x"`, a recovery function that returns the
row unchanged, and a group holding one fulfilled and one rejected
invocation. -/
theorem error_recovery_witness :
    wrappedFn (fun _ => .error (.nonError (.str ['x'])))
      (some fun r _ _ => .ok r) (.arr []) = .ok (.arr []) ∧
    wrappedFn (fun _ => .error (.errObj ['m'])) none (.arr []) = .error (.errObj ['m']) ∧
    enqueueConcurrent false
      ([JVal.arr [.str ['a']]].map .ok ++ .error (.nonError (.str ['x'])) :: []) =
      ([.str "[\"a\"]".toList], some (.errObj ['x'])) := by
  refine ⟨?_, ?_, ?_⟩
  · exact (error_recovery_contract.1 (fun _ => .error (.nonError (.str ['x'])))
      (fun r _ _ => .ok r) (.arr []) (.nonError (.str ['x'])) rfl).trans rfl
  · exact error_recovery_contract.2.1 (fun _ => .error (.errObj ['m'])) (.arr [])
      (.errObj ['m']) rfl
  · exact (error_recovery_contract.2.2.1 false [JVal.arr [.str ['a']]]
      (.nonError (.str ['x'])) []).trans (by decide)

/-- C9 (amended): header default passthrough.  With the default options
(`handleHeaders: false`), for every transformation function, the first
chunk emitted is byte-identical to the first chunk received, provided
the first chunk is the canonical JSON serialization of an array whose
first element is not itself an array.  (The amendment adds the proviso:
a header chunk parsing to an array of arrays is split into one emitted
chunk per sub-array, and a non-canonical serialization is re-serialized
canonically; see the counterexample.) -/
theorem header_default_passthrough (fn : TransFn) (rest : List (List Char))
    (h₀ : List Char) (v : List JVal)
    (hp : jsonParse h₀ = some (.arr v))
    (hflat : headIsArr v = false)
    (hcanon : jsonStringify (.arr v) = h₀) :
    (runTransformer {} fn (h₀ :: rest)).outs.head? = some (.str h₀) := by
  have henq : enqueueRow false (.arr v) = [.str h₀] := by
    cases v with
    | nil => simp [enqueueRow, hcanon]
    | cons w ws =>
      cases w with
      | null => simp [enqueueRow, hcanon]
      | str s => simp [enqueueRow, hcanon]
      | arr r => simp [headIsArr] at hflat
  have hstep : tTransform {} fn initTrans h₀ =
      ⟨[.str h₀], [], none, ⟨[], [], false⟩⟩ := by
    simp [tTransform, rowParse, hp, initTrans, wrappedHeaderFn, henq]
  unfold runTransformer
  simp only [runChunksT, hstep]
  rcases hf : (runChunksT {} fn ⟨[], [], false⟩ rest).fatal with _ | e <;>
    simp [hf]

/-- Without batching (`maxBatchSize` not greater than 1), every row is
submitted on its own and the batch buffer is never touched. -/
theorem batchRun_le_one (N : Nat) (hN : ¬1 < N) :
    ∀ (l : List JVal) (b : List JVal), batchRun N b l = (l.map fun r => [r], b)
  | [], b => by simp [batchRun]
  | r :: rest, b => by
    simp [batchRun, hN, batchRun_le_one N hN rest b]

/-- A run too short to fill the batch only accumulates. -/
theorem batchRun_small (N : Nat) (hN : 1 < N) :
    ∀ (l : List JVal) (b : List JVal), b.length + l.length < N →
      batchRun N b l = ([], b ++ l)
  | [], b, _ => by simp [batchRun]
  | r :: rest, b, h => by
    simp only [List.length_cons] at h
    have hlt : ¬b.length + 1 = N := by omega
    have hrec := batchRun_small N hN rest (b ++ [r]) (by simp; omega)
    simp [batchRun, hN, hlt, hrec]

/-- A run that exactly fills the batch submits it and leaves the buffer
empty. -/
theorem batchRun_fill (N : Nat) (hN : 1 < N) :
    ∀ (l : List JVal) (b : List JVal), l ≠ [] → b.length + l.length = N →
      batchRun N b l = ([b ++ l], [])
  | [], _, hne, _ => absurd rfl hne
  | [r], b, _, h => by
    simp only [List.length_cons, List.length_nil] at h
    have hfill : b.length + 1 = N := by omega
    simp [batchRun, hN, hfill]
  | r :: s :: rest, b, _, h => by
    simp only [List.length_cons] at h
    have hlt : ¬b.length + 1 = N := by omega
    have hrec := batchRun_fill N hN (s :: rest) (b ++ [r]) (by simp) (by simp; omega)
    rw [batchRun, if_pos hN]
    simp [hlt, hrec]

/-- Processing a concatenation processes the pieces in sequence,
carrying the batch buffer across the boundary. -/
theorem batchRun_append (N : Nat) :
    ∀ (l₁ l₂ : List JVal) (b : List JVal),
      batchRun N b (l₁ ++ l₂) =
        ((batchRun N b l₁).1 ++ (batchRun N (batchRun N b l₁).2 l₂).1,
          (batchRun N (batchRun N b l₁).2 l₂).2)
  | [], l₂, b => by simp [batchRun]
  | r :: rest, l₂, b => by
    by_cases hN : 1 < N
    · by_cases hfill : b.length + 1 = N
      · simp [batchRun, hN, hfill, batchRun_append N rest l₂ []]
      · simp [batchRun, hN, hfill, batchRun_append N rest l₂ (b ++ [r])]
    · simp [batchRun, hN, batchRun_append N rest l₂ b]

/-- With batching active and at least a full batch of input, the first
`N` rows form the first submission. -/
theorem batchRun_ge (N : Nat) (l : List JVal) (hN : 1 < N) (hge : N ≤ l.length) :
    batchRun N [] l =
      (l.take N :: (batchRun N [] (l.drop N)).1, (batchRun N [] (l.drop N)).2) := by
  have hlen : (l.take N).length = N := by
    simp [List.length_take]
    omega
  have htake : batchRun N [] (l.take N) = ([[] ++ l.take N], []) := by
    refine batchRun_fill N hN (l.take N) [] ?_ (by simp [hlen])
    intro hcon
    rw [hcon] at hlen
    simp at hlen
    omega
  have happ := batchRun_append N (l.take N) (l.drop N) []
  rw [List.take_append_drop] at happ
  rw [happ, htake]
  simp

/-- No input rows: no submissions. -/
theorem submissionsOf_nil (N : Nat) : submissionsOf N [] = [] := by
  simp [submissionsOf, batchRun]

/-- Without batching, each row is its own submission. -/
theorem submissionsOf_one (l : List JVal) : submissionsOf 1 l = l.map fun r => [r] := by
  simp [submissionsOf, batchRun_le_one 1 (by omega) l []]

/-- With batching, fewer rows than a batch are flushed as one leftover
submission. -/
theorem submissionsOf_small (N : Nat) (l : List JVal) (hN : 1 < N) (hlt : l.length < N) :
    submissionsOf N l = if l = [] then [] else [l] := by
  simp only [submissionsOf, batchRun_small N hN l [] (by simpa using hlt)]
  by_cases hl : l = [] <;> simp [hl]

/-- With batching and at least a full batch of rows, the first batch
splits off. -/
theorem submissionsOf_ge (N : Nat) (l : List JVal) (hN : 1 < N) (hge : N ≤ l.length) :
    submissionsOf N l = l.take N :: submissionsOf N (l.drop N) := by
  simp [submissionsOf, batchRun_ge N l hN hge]

/-- Flattening singleton batches recovers the rows. -/
theorem flatten_map_singleton (l : List JVal) : (l.map fun r => [r]).flatten = l := by
  induction l with
  | nil => simp
  | cons r rest ih => simp [ih]

/-- Batch boundaries preserve row order: the submitted batches flatten
back to the original row sequence. -/
theorem submissionsOf_flatten (N : Nat) (h1 : 1 ≤ N) (l : List JVal) :
    (submissionsOf N l).flatten = l := by
  by_cases hN : 1 < N
  · rcases Nat.lt_or_ge l.length N with hlt | hge
    · rw [submissionsOf_small N l hN hlt]
      by_cases hl : l = [] <;> simp [hl]
    · have hdrop : (l.drop N).length < l.length := by
        rw [List.length_drop]
        omega
      rw [submissionsOf_ge N l hN hge]
      simp [submissionsOf_flatten N h1 (l.drop N)]
  · have hN1 : N = 1 := by omega
    subst hN1
    rw [submissionsOf_one, flatten_map_singleton]
termination_by l.length
decreasing_by
  simpa [List.length_drop] using hdrop

/-- A non-empty row sequence yields at least one submission. -/
theorem submissionsOf_ne_nil (N : Nat) (h1 : 1 ≤ N) (l : List JVal) (hl : l ≠ []) :
    submissionsOf N l ≠ [] := by
  intro hcon
  have := submissionsOf_flatten N h1 l
  rw [hcon] at this
  exact hl this.symm

/-- The number of submissions is the ceiling of rows over batch size. -/
theorem submissionsOf_length (N : Nat) (h1 : 1 ≤ N) (l : List JVal) (hl : l ≠ []) :
    (submissionsOf N l).length = (l.length + N - 1) / N := by
  by_cases hN : 1 < N
  · rcases Nat.lt_or_ge l.length N with hlt | hge
    · rw [submissionsOf_small N l hN hlt, if_neg hl]
      have h0 : 0 < l.length := List.length_pos.mpr hl
      have he : l.length + N - 1 = (l.length - 1) + N := by omega
      rw [List.length_singleton, he, Nat.add_div_right _ (by omega : 0 < N),
        Nat.div_eq_of_lt (by omega : l.length - 1 < N)]
    · by_cases hd : l.drop N = []
      · have hld : (l.drop N).length = l.length - N := List.length_drop N l
        rw [hd] at hld
        simp only [List.length_nil] at hld
        rw [submissionsOf_ge N l hN hge, hd, submissionsOf_nil, List.length_singleton]
        have he : l.length + N - 1 = (N - 1) + N := by omega
        rw [he, Nat.add_div_right _ (by omega : 0 < N),
          Nat.div_eq_of_lt (by omega : N - 1 < N)]
      · rw [submissionsOf_ge N l hN hge, List.length_cons,
          submissionsOf_length N h1 (l.drop N) hd, List.length_drop]
        have he : l.length + N - 1 = (l.length - N + N - 1) + N := by omega
        rw [he, Nat.add_div_right _ (by omega : 0 < N)]
  · have hN1 : N = 1 := by omega
    subst hN1
    rw [submissionsOf_one]
    simp
termination_by l.length
decreasing_by
  rw [List.length_drop]
  omega

/-- The final submission receives the remainder of the rows: `M mod N`
rows, or a full `N` when the batch size divides evenly. -/
theorem submissionsOf_getLast (N : Nat) (h1 : 1 ≤ N) (l : List JVal) (hl : l ≠ []) :
    ∃ lastB, (submissionsOf N l).getLast? = some lastB ∧
      lastB.length = if l.length % N = 0 then N else l.length % N := by
  by_cases hN : 1 < N
  · rcases Nat.lt_or_ge l.length N with hlt | hge
    · have h0 : 0 < l.length := List.length_pos.mpr hl
      refine ⟨l, ?_, ?_⟩
      · rw [submissionsOf_small N l hN hlt, if_neg hl]
        rfl
      · rw [Nat.mod_eq_of_lt hlt, if_neg (by omega)]
    · by_cases hd : l.drop N = []
      · have hld : (l.drop N).length = l.length - N := List.length_drop N l
        rw [hd] at hld
        simp only [List.length_nil] at hld
        have hlen : l.length = N := by omega
        refine ⟨l.take N, ?_, ?_⟩
        · rw [submissionsOf_ge N l hN hge, hd, submissionsOf_nil]
          rfl
        · have ht : (l.take N).length = N := by
            simp [List.length_take]
            omega
          rw [ht, hlen, Nat.mod_self, if_pos rfl]
      · obtain ⟨lastB, hg, hlast⟩ := submissionsOf_getLast N h1 (l.drop N) hd
        refine ⟨lastB, ?_, ?_⟩
        · rw [submissionsOf_ge N l hN hge,
            show l.take N :: submissionsOf N (l.drop N) =
              [l.take N] ++ submissionsOf N (l.drop N) from rfl,
            List.getLast?_append_of_ne_nil [l.take N]
              (submissionsOf_ne_nil N h1 (l.drop N) hd)]
          exact hg
        · rw [hlast, List.length_drop]
          have hmod : (l.length - N) % N = l.length % N := by
            have hsplit : l.length = (l.length - N) + N := by omega
            conv_rhs => rw [hsplit]
            rw [Nat.add_mod_right]
          rw [hmod]
  · have hN1 : N = 1 := by omega
    subst hN1
    refine ⟨[l.getLast hl], ?_, by simp [Nat.mod_one]⟩
    rw [submissionsOf_one, List.getLast?_map _ l, List.getLast?_eq_getLast l hl]
    rfl
termination_by l.length
decreasing_by
  rw [List.length_drop]
  omega

/-- One batching step when the incoming row fills the batch. -/
theorem batchRun_cons_fill (N : Nat) (b : List JVal) (r : JVal) (l : List JVal)
    (hN : 1 < N) (hfill : b.length + 1 = N) :
    batchRun N b (r :: l) =
      ((b ++ [r]) :: (batchRun N [] l).1, (batchRun N [] l).2) := by
  rw [batchRun, if_pos hN]
  simp [hfill]

/-- One batching step when the incoming row does not fill the batch. -/
theorem batchRun_cons_nofill (N : Nat) (b : List JVal) (r : JVal) (l : List JVal)
    (hN : 1 < N) (hfill : ¬b.length + 1 = N) :
    batchRun N b (r :: l) = batchRun N (b ++ [r]) l := by
  rw [batchRun, if_pos hN]
  simp [hfill]

/-- One batching step without batching: the row is its own submission. -/
theorem batchRun_cons_one (N : Nat) (b : List JVal) (r : JVal) (l : List JVal)
    (hN : ¬1 < N) :
    batchRun N b (r :: l) = ([r] :: (batchRun N b l).1, (batchRun N b l).2) := by
  rw [batchRun, if_neg hN]

/-- Draining a group in which every invocation fulfilled enqueues every
output in submission order and raises no error. -/
theorem enqueueConcurrent_ok (ro : Bool) :
    ∀ vs : List JVal,
      enqueueConcurrent ro (vs.map .ok) = ((vs.map (enqueueRow ro)).flatten, none)
  | [] => by simp [enqueueConcurrent]
  | v :: rest => by simp [enqueueConcurrent, enqueueConcurrent_ok ro rest]

/-- Master lemma for a succeeding transformer run past the header: the
chunks are batched exactly as `batchRun` describes, no fatal error is
raised, the concurrency group stays strictly below `maxConcurrent`
between chunks, and the chunks enqueued so far plus the results still
pending equal the per-submission outputs in submission order. -/
theorem runChunksT_success (o : Opts) (fn : TransFn) (g : JVal → JVal)
    (hg : ∀ v, wrappedFn fn o.onError v = .ok (g v)) :
    ∀ (chunks : List (List Char)) (b : List JVal) (pend : List JVal),
      pend.length < o.maxConcurrent →
      b.length < o.maxBatchSize →
      (∀ c ∈ chunks, (rowParse o c).isSome) →
      ∃ (outs : List JVal) (pend' : List JVal),
        runChunksT o fn ⟨pend.map .ok, b, false⟩ chunks =
          ⟨outs, (batchRun o.maxBatchSize b (rowsOf o chunks)).1, none,
            ⟨pend'.map .ok, (batchRun o.maxBatchSize b (rowsOf o chunks)).2, false⟩⟩ ∧
        pend'.length < o.maxConcurrent ∧
        outs ++ (pend'.map (enqueueRow o.rawOutput)).flatten =
          (pend.map (enqueueRow o.rawOutput)).flatten ++
            ((batchRun o.maxBatchSize b (rowsOf o chunks)).1.map
              fun bb => enqueueRow o.rawOutput (g (callArg o.maxBatchSize bb))).flatten
  | [], b, pend, hpC, hbN, _ =>
    ⟨[], pend, by simp [runChunksT, rowsOf, batchRun], hpC, by simp [rowsOf, batchRun]⟩
  | c :: rest, b, pend, hpC, hbN, hp => by
    obtain ⟨r, hr⟩ := Option.isSome_iff_exists.mp (hp c (List.mem_cons_self c rest))
    have hp' : ∀ c' ∈ rest, (rowParse o c').isSome :=
      fun c' hc' => hp c' (List.mem_cons_of_mem c hc')
    have hrows : rowsOf o (c :: rest) = r :: rowsOf o rest := by
      simp [rowsOf, hr]
    rw [hrows]
    by_cases hB : 1 < o.maxBatchSize
    · by_cases hfill : b.length + 1 = o.maxBatchSize
      · by_cases hdrain : pend.length + 1 = o.maxConcurrent
        · obtain ⟨outs, pend', hrun, hlen, hacc⟩ := runChunksT_success o fn g hg rest [] []
            (by simp only [List.length_nil]; omega) (by simp only [List.length_nil]; omega) hp'
          simp only [List.map_nil] at hrun
          have hmap : List.map Except.ok pend ++ [Except.ok (g (.arr (b ++ [r])))] =
              ((pend ++ [g (.arr (b ++ [r]))]).map Except.ok : List (Except Thrown JVal)) := by
            simp
          have htt : tTransform o fn ⟨pend.map .ok, b, false⟩ c =
              ⟨((pend ++ [g (.arr (b ++ [r]))]).map (enqueueRow o.rawOutput)).flatten,
                [b ++ [r]], none, ⟨[], [], false⟩⟩ := by
            simp [tTransform, hr, hB, hfill, hdrain, hg]
            rw [hmap, enqueueConcurrent_ok]
            simp
          refine ⟨((pend ++ [g (.arr (b ++ [r]))]).map (enqueueRow o.rawOutput)).flatten ++
              outs, pend', ?_, hlen, ?_⟩
          · rw [runChunksT, htt]
            simp only [hrun, batchRun_cons_fill o.maxBatchSize b r (rowsOf o rest) hB hfill,
              List.singleton_append]
          · rw [batchRun_cons_fill o.maxBatchSize b r (rowsOf o rest) hB hfill]
            simp only [List.map_append, List.flatten_append, List.map_cons,
              List.flatten_cons, List.append_assoc, List.map_nil, List.flatten_nil,
              List.nil_append] at hacc ⊢
            rw [hacc]
            simp [callArg, hB]
        · obtain ⟨outs, pend', hrun, hlen, hacc⟩ := runChunksT_success o fn g hg rest []
            (pend ++ [g (.arr (b ++ [r]))]) (by simp; omega) (by simp only [List.length_nil]; omega) hp'
          have htt : tTransform o fn ⟨pend.map .ok, b, false⟩ c =
              ⟨[], [b ++ [r]], none,
                ⟨(pend ++ [g (.arr (b ++ [r]))]).map .ok, [], false⟩⟩ := by
            simp [tTransform, hr, hB, hfill, hdrain, hg]
          refine ⟨outs, pend', ?_, hlen, ?_⟩
          · rw [runChunksT, htt]
            simp only [hrun, batchRun_cons_fill o.maxBatchSize b r (rowsOf o rest) hB hfill,
              List.nil_append, List.singleton_append]
          · rw [batchRun_cons_fill o.maxBatchSize b r (rowsOf o rest) hB hfill]
            simp only [List.map_append, List.flatten_append, List.map_cons,
              List.flatten_cons, List.append_assoc, List.map_nil, List.flatten_nil,
              List.nil_append] at hacc ⊢
            rw [hacc]
            simp [callArg, hB]
      · obtain ⟨outs, pend', hrun, hlen, hacc⟩ := runChunksT_success o fn g hg rest
          (b ++ [r]) pend hpC (by simp; omega) hp'
        have htt : tTransform o fn ⟨pend.map .ok, b, false⟩ c =
            ⟨[], [], none, ⟨pend.map .ok, b ++ [r], false⟩⟩ := by
          simp [tTransform, hr, hB, hfill]
          omega
        refine ⟨outs, pend', ?_, hlen, ?_⟩
        · rw [runChunksT, htt]
          simp only [hrun, batchRun_cons_nofill o.maxBatchSize b r (rowsOf o rest) hB hfill,
            List.nil_append]
        · rw [batchRun_cons_nofill o.maxBatchSize b r (rowsOf o rest) hB hfill]
          exact hacc
    · have hb0 : b = [] := List.length_eq_zero.mp (by omega)
      subst hb0
      by_cases hdrain : pend.length + 1 = o.maxConcurrent
      · obtain ⟨outs, pend', hrun, hlen, hacc⟩ := runChunksT_success o fn g hg rest [] []
          (by simp only [List.length_nil]; omega) (by simp only [List.length_nil]; omega) hp'
        simp only [List.map_nil] at hrun
        have hmap : List.map Except.ok pend ++ [Except.ok (g r)] =
            ((pend ++ [g r]).map Except.ok : List (Except Thrown JVal)) := by simp
        have htt : tTransform o fn ⟨pend.map .ok, [], false⟩ c =
            ⟨((pend ++ [g r]).map (enqueueRow o.rawOutput)).flatten,
              [[r]], none, ⟨[], [], false⟩⟩ := by
          simp [tTransform, hr, hB, hdrain, hg]
          rw [hmap, enqueueConcurrent_ok]
          simp
        refine ⟨((pend ++ [g r]).map (enqueueRow o.rawOutput)).flatten ++ outs, pend',
          ?_, hlen, ?_⟩
        · rw [runChunksT, htt]
          simp only [hrun, batchRun_cons_one o.maxBatchSize [] r (rowsOf o rest) hB,
            List.singleton_append]
        · rw [batchRun_cons_one o.maxBatchSize [] r (rowsOf o rest) hB]
          simp only [List.map_append, List.flatten_append, List.map_cons,
            List.flatten_cons, List.append_assoc, List.map_nil, List.flatten_nil,
            List.nil_append] at hacc ⊢
          rw [hacc]
          simp [callArg, hB]
      · obtain ⟨outs, pend', hrun, hlen, hacc⟩ := runChunksT_success o fn g hg rest []
          (pend ++ [g r]) (by simp; omega) (by simp only [List.length_nil]; omega) hp'
        have htt : tTransform o fn ⟨pend.map .ok, [], false⟩ c =
            ⟨[], [[r]], none, ⟨(pend ++ [g r]).map .ok, [], false⟩⟩ := by
          simp [tTransform, hr, hB, hdrain, hg]
        refine ⟨outs, pend', ?_, hlen, ?_⟩
        · rw [runChunksT, htt]
          simp only [hrun, batchRun_cons_one o.maxBatchSize [] r (rowsOf o rest) hB,
            List.nil_append, List.singleton_append]
        · rw [batchRun_cons_one o.maxBatchSize [] r (rowsOf o rest) hB]
          simp only [List.map_append, List.flatten_append, List.map_cons,
            List.flatten_cons, List.append_assoc, List.map_nil, List.flatten_nil,
            List.nil_append] at hacc ⊢
          rw [hacc]
          simp [callArg, hB]

/-- The leftover batch buffer always stays strictly below the batch
size. -/
theorem batchRun_snd_length (N : Nat) :
    ∀ (l : List JVal) (b : List JVal), b.length < N → (batchRun N b l).2.length < N
  | [], b, hb => by simpa [batchRun] using hb
  | r :: rest, b, hb => by
    by_cases hN : 1 < N
    · by_cases hfill : b.length + 1 = N
      · rw [batchRun_cons_fill N b r rest hN hfill]
        exact batchRun_snd_length N rest [] (by simp; omega)
      · rw [batchRun_cons_nofill N b r rest hN hfill]
        exact batchRun_snd_length N rest (b ++ [r]) (by simp; omega)
    · rw [batchRun_cons_one N b r rest hN]
      exact batchRun_snd_length N rest b hb

/-- `CSVTransformer.#flush` on a group of fulfilled results: it submits
the leftover batch if one remains, drains the whole group in submission
order, raises no error, and leaves the concurrency group empty. -/
theorem tFlush_ok (o : Opts) (fn : TransFn) (g : JVal → JVal)
    (hg : ∀ v, wrappedFn fn o.onError v = .ok (g v)) (pend bf : List JVal) :
    tFlush o fn ⟨pend.map .ok, bf, false⟩ =
      ⟨((pend ++ (if bf = [] then [] else [g (.arr bf)])).map
          (enqueueRow o.rawOutput)).flatten,
        (if bf = [] then [] else [bf]), none, ⟨[], bf, false⟩⟩ := by
  by_cases hbf : bf = []
  · subst hbf
    rcases pend with _ | ⟨v, rest⟩
    · simp [tFlush]
    · have hok := enqueueConcurrent_ok o.rawOutput (v :: rest)
      simp only [List.map_cons] at hok
      simp [tFlush, hok]
  · have hok := enqueueConcurrent_ok o.rawOutput (pend ++ [g (.arr bf)])
    simp only [List.map_append, List.map_cons, List.map_nil] at hok
    have hlen : bf.length > 0 := List.length_pos.mpr hbf
    simp [tFlush, hlen, hbf, hg, hok]

/-- The first chunk with default header handling: emitted unchanged (up
to re-serialization), never invoking the transformation function. -/
theorem tTransform_header (o : Opts) (fn : TransFn)
    (hH : o.handleHeaders = HandleHeaders.flag false)
    (c : List Char) (hv : JVal) (hr : rowParse o c = some hv) :
    tTransform o fn initTrans c =
      ⟨enqueueRow o.rawOutput hv, [], none, ⟨[], [], false⟩⟩ := by
  simp [tTransform, hr, initTrans, wrappedHeaderFn, hH]

/-- A whole succeeding run with default header handling: the header
chunk is emitted first; the data rows are batched per `submissionsOf`;
every submission's output follows in submission order; no fatal error is
raised; and the final concurrency group is empty. -/
theorem runTransformer_success (o : Opts) (fn : TransFn) (g : JVal → JVal)
    (hg : ∀ v, wrappedFn fn o.onError v = .ok (g v))
    (hH : o.handleHeaders = HandleHeaders.flag false)
    (hN : 1 ≤ o.maxBatchSize) (hC : 1 ≤ o.maxConcurrent)
    (hdr : List Char) (data : List (List Char))
    (hph : (rowParse o hdr).isSome)
    (hp : ∀ c ∈ data, (rowParse o c).isSome) :
    runTransformer o fn (hdr :: data) =
      ⟨enqueueRow o.rawOutput ((rowParse o hdr).getD .null) ++
          ((submissionsOf o.maxBatchSize (rowsOf o data)).map
            fun bb => enqueueRow o.rawOutput (g (callArg o.maxBatchSize bb))).flatten,
        submissionsOf o.maxBatchSize (rowsOf o data), none,
        ⟨[], (batchRun o.maxBatchSize [] (rowsOf o data)).2, false⟩⟩ := by
  obtain ⟨rh, hrh⟩ := Option.isSome_iff_exists.mp hph
  obtain ⟨outs, pend', hrun, hlen, hacc⟩ := runChunksT_success o fn g hg data [] []
    (by simp only [List.length_nil]; omega) (by simp only [List.length_nil]; omega) hp
  simp only [List.map_nil] at hrun
  have hbf : ¬1 < o.maxBatchSize → (batchRun o.maxBatchSize [] (rowsOf o data)).2 = [] :=
    fun h => by rw [batchRun_le_one o.maxBatchSize h (rowsOf o data) []]
  have harg : (batchRun o.maxBatchSize [] (rowsOf o data)).2 ≠ [] →
      callArg o.maxBatchSize (batchRun o.maxBatchSize [] (rowsOf o data)).2 =
        .arr (batchRun o.maxBatchSize [] (rowsOf o data)).2 := by
    intro hne
    rcases Nat.lt_or_ge 1 o.maxBatchSize with h | h
    · simp [callArg, h]
    · exact absurd (hbf (by omega)) hne
  have hchunks : runChunksT o fn initTrans (hdr :: data) =
      ⟨enqueueRow o.rawOutput rh ++ outs,
        (batchRun o.maxBatchSize [] (rowsOf o data)).1, none,
        ⟨pend'.map .ok, (batchRun o.maxBatchSize [] (rowsOf o data)).2, false⟩⟩ := by
    rw [runChunksT, tTransform_header o fn hH hdr rh hrh]
    simp only [hrun, List.nil_append]
  have hacc' : outs ++ (pend'.map (enqueueRow o.rawOutput)).flatten =
      ((batchRun o.maxBatchSize [] (rowsOf o data)).1.map
        fun bb => enqueueRow o.rawOutput (g (callArg o.maxBatchSize bb))).flatten := by
    simpa using hacc
  unfold runTransformer
  rw [hchunks]
  simp only []
  rw [tFlush_ok o fn g hg pend' (batchRun o.maxBatchSize [] (rowsOf o data)).2]
  simp only [hrh, Option.getD_some, submissionsOf]
  by_cases hend : (batchRun o.maxBatchSize [] (rowsOf o data)).2 = []
  · simp [hend, hacc', List.append_assoc]
  · simp [hend, harg hend, hacc', List.append_assoc]
    rw [← List.append_assoc, hacc']

/-- C6: batching correctness.  For `maxBatchSize = N ≥ 1`,
`maxConcurrent = C ≥ 1` and `M ≥ 1` non-header data rows flowing through
one `CSVTransformer` whose transformation function always succeeds
(counting the flush of a partial batch at end of input): no fatal error
occurs, the transformation function is invoked exactly
`ceil(M / N)` times, batch boundaries preserve row order, and the final
invocation receives `M mod N` rows (or `N` when `N` divides `M`). -/
theorem batching_correctness (N C : Nat) (fn : TransFn) (g : JVal → JVal)
    (hN : 1 ≤ N) (hC : 1 ≤ C) (hfn : ∀ v, fn v = .ok (g v))
    (hdr : List Char) (data : List (List Char)) (hM : 1 ≤ data.length)
    (hph : (jsonParse hdr).isSome) (hp : ∀ c ∈ data, (jsonParse c).isSome) :
    (runTransformer { maxBatchSize := N, maxConcurrent := C } fn (hdr :: data)).fatal =
      none ∧
    (runTransformer { maxBatchSize := N, maxConcurrent := C } fn
        (hdr :: data)).calls.length = (data.length + N - 1) / N ∧
    (runTransformer { maxBatchSize := N, maxConcurrent := C } fn
        (hdr :: data)).calls.flatten =
      rowsOf { maxBatchSize := N, maxConcurrent := C } data ∧
    ∃ lastB,
      (runTransformer { maxBatchSize := N, maxConcurrent := C } fn
          (hdr :: data)).calls.getLast? = some lastB ∧
      lastB.length = if data.length % N = 0 then N else data.length % N := by
  have hrows_len :
      (rowsOf { maxBatchSize := N, maxConcurrent := C } data).length = data.length := by
    simp [rowsOf]
  have hdata_ne : data ≠ [] := List.ne_nil_of_length_pos (by omega)
  have hrows_ne : rowsOf { maxBatchSize := N, maxConcurrent := C } data ≠ [] := by
    simp only [rowsOf, ne_eq, List.map_eq_nil_iff]
    exact hdata_ne
  have hres := runTransformer_success { maxBatchSize := N, maxConcurrent := C } fn g
    (fun v => hfn v) rfl hN hC hdr data hph hp
  rw [hres]
  refine ⟨rfl, ?_, ?_, ?_⟩
  · show (submissionsOf N (rowsOf { maxBatchSize := N, maxConcurrent := C } data)).length = _
    rw [submissionsOf_length N hN _ hrows_ne, hrows_len]
  · show (submissionsOf N (rowsOf { maxBatchSize := N, maxConcurrent := C } data)).flatten = _
    exact submissionsOf_flatten N hN _
  · show ∃ lastB,
      (submissionsOf N (rowsOf { maxBatchSize := N, maxConcurrent := C } data)).getLast? =
        some lastB ∧ _
    have := submissionsOf_getLast N hN _ hrows_ne
    rwa [hrows_len] at this

/-- C6, witness: `maxBatchSize = 2` on four data rows with an identity
transform — exactly two invocations, receiving `[["1"],["2"]]` and
`[["3"],["4"]]`, in order. -/
theorem batching_correctness_witness :
    ((1 : Nat) ≤ 2 ∧ (1 : Nat) ≤ 1 ∧
      1 ≤ (["[\"1\"]".toList, "[\"2\"]".toList, "[\"3\"]".toList,
        "[\"4\"]".toList] : List (List Char)).length) ∧
    (runTransformer { maxBatchSize := 2, maxConcurrent := 1 } (fun v => .ok v)
        ("[\"h\"]".toList :: ["[\"1\"]".toList, "[\"2\"]".toList, "[\"3\"]".toList,
          "[\"4\"]".toList])).calls.length = 2 ∧
    (runTransformer { maxBatchSize := 2, maxConcurrent := 1 } (fun v => .ok v)
        ("[\"h\"]".toList :: ["[\"1\"]".toList, "[\"2\"]".toList, "[\"3\"]".toList,
          "[\"4\"]".toList])).calls =
      [[.arr [.str ['1']], .arr [.str ['2']]], [.arr [.str ['3']], .arr [.str ['4']]]] := by
  refine ⟨⟨by decide, by decide, by decide⟩, ?_, by decide⟩
  have h := (batching_correctness 2 1 (fun v => .ok v) (fun v => v) (by decide) (by decide)
    (fun _ => rfl) "[\"h\"]".toList
    ["[\"1\"]".toList, "[\"2\"]".toList, "[\"3\"]".toList, "[\"4\"]".toList]
    (by decide) (by decide) (by decide)).2.1
  simpa using h

/-- C8: submission-order output.  For every `maxConcurrent = C ≥ 1` and
every sequence of data rows whose transformation invocations all
succeed, the chunks emitted by the `CSVTransformer` are the header
followed by each invocation's output in original submission order — an
expression independent of `C`, so the whole run equals the fully
sequential (`maxConcurrent = 1`) run. -/
theorem submission_order (C : Nat) (fn : TransFn) (g : JVal → JVal) (hC : 1 ≤ C)
    (hfn : ∀ v, fn v = .ok (g v)) (hdr : List Char) (data : List (List Char))
    (hph : (jsonParse hdr).isSome) (hp : ∀ c ∈ data, (jsonParse c).isSome) :
    (runTransformer { maxConcurrent := C } fn (hdr :: data)).outs =
      enqueueRow false ((jsonParse hdr).getD .null) ++
        ((data.map fun c => (jsonParse c).getD JVal.null).map
          fun r => enqueueRow false (g r)).flatten ∧
    (runTransformer { maxConcurrent := C } fn (hdr :: data)).fatal = none ∧
    runTransformer { maxConcurrent := C } fn (hdr :: data) =
      runTransformer { maxConcurrent := 1 } fn (hdr :: data) := by
  have h1 : runTransformer { maxConcurrent := C } fn (hdr :: data) =
      ⟨enqueueRow false ((jsonParse hdr).getD .null) ++
          ((submissionsOf 1 (data.map fun c => (jsonParse c).getD JVal.null)).map
            fun bb => enqueueRow false (g (callArg 1 bb))).flatten,
        submissionsOf 1 (data.map fun c => (jsonParse c).getD JVal.null), none,
        ⟨[], (batchRun 1 [] (data.map fun c => (jsonParse c).getD JVal.null)).2, false⟩⟩ :=
    runTransformer_success { maxConcurrent := C } fn g (fun v => hfn v) rfl
      (Nat.le_refl 1) hC hdr data hph hp
  have h2 : runTransformer { maxConcurrent := 1 } fn (hdr :: data) =
      ⟨enqueueRow false ((jsonParse hdr).getD .null) ++
          ((submissionsOf 1 (data.map fun c => (jsonParse c).getD JVal.null)).map
            fun bb => enqueueRow false (g (callArg 1 bb))).flatten,
        submissionsOf 1 (data.map fun c => (jsonParse c).getD JVal.null), none,
        ⟨[], (batchRun 1 [] (data.map fun c => (jsonParse c).getD JVal.null)).2, false⟩⟩ :=
    runTransformer_success { maxConcurrent := 1 } fn g (fun v => hfn v) rfl
      (Nat.le_refl 1) (Nat.le_refl 1) hdr data hph hp
  refine ⟨?_, by rw [h1], h1.trans h2.symm⟩
  rw [h1]
  show enqueueRow false ((jsonParse hdr).getD .null) ++
      ((submissionsOf 1 (data.map fun c => (jsonParse c).getD JVal.null)).map
        fun bb => enqueueRow false (g (callArg 1 bb))).flatten = _
  rw [submissionsOf_one]
  simp only [List.map_map, callArg]
  refine congrArg (fun x => enqueueRow false ((jsonParse hdr).getD JVal.null) ++ x)
    (congrArg List.flatten (List.map_congr_left fun c hc => ?_))
  simp

/-- C8, witness: with `maxConcurrent = 2` and an identity transform on
three data rows, the emitted chunks equal the header followed by each
row in submission order, and the whole run equals the sequential run. -/
theorem submission_order_witness :
    ((1 : Nat) ≤ 2 ∧ (jsonParse "[\"h\"]".toList).isSome ∧
      ∀ c ∈ ["[\"1\"]".toList, "[\"2\"]".toList, "[\"3\"]".toList],
        (jsonParse c).isSome) ∧
    runTransformer { maxConcurrent := 2 } (fun v => .ok v)
        ("[\"h\"]".toList :: ["[\"1\"]".toList, "[\"2\"]".toList, "[\"3\"]".toList]) =
      runTransformer { maxConcurrent := 1 } (fun v => .ok v)
        ("[\"h\"]".toList :: ["[\"1\"]".toList, "[\"2\"]".toList, "[\"3\"]".toList]) ∧
    (runTransformer { maxConcurrent := 2 } (fun v => .ok v)
        ("[\"h\"]".toList :: ["[\"1\"]".toList, "[\"2\"]".toList, "[\"3\"]".toList])).outs =
      [.str "[\"h\"]".toList, .str "[\"1\"]".toList, .str "[\"2\"]".toList,
        .str "[\"3\"]".toList] :=
  ⟨⟨by decide, by decide, by decide⟩,
    (submission_order 2 (fun v => .ok v) (fun v => v) (by decide) (fun _ => rfl)
      "[\"h\"]".toList ["[\"1\"]".toList, "[\"2\"]".toList, "[\"3\"]".toList]
      (by decide) (by decide)).2.2,
    by decide⟩

/-- C10: buffer-drain invariant.  With `maxBatchSize = N ≥ 1` and
`maxConcurrent = C ≥ 1` and a succeeding transformation function:
(1) after any prefix of the chunk stream the pending concurrency group
holds strictly fewer than `C` settled-but-unemitted invocations and the
batch buffer strictly fewer than `N` rows — each is submitted or drained
in full the moment it reaches its configured maximum; (2) finalization
always leaves the concurrency group empty and submits a non-empty
leftover batch as one final invocation; (3) over the whole run no row is
left unprocessed: the invocation inputs flatten back to the data rows. -/
theorem buffer_drain_invariant (N C : Nat) (fn : TransFn) (g : JVal → JVal)
    (hN : 1 ≤ N) (hC : 1 ≤ C) (hfn : ∀ v, fn v = .ok (g v))
    (hdr : List Char) (pre suf : List (List Char))
    (hph : (jsonParse hdr).isSome) (hp : ∀ c ∈ pre ++ suf, (jsonParse c).isSome) :
    ((runChunksT { maxBatchSize := N, maxConcurrent := C } fn initTrans
        (hdr :: pre)).st.concurrent.length < C ∧
      (runChunksT { maxBatchSize := N, maxConcurrent := C } fn initTrans
        (hdr :: pre)).st.batch.length < N) ∧
    (∀ st : TState,
      (tFlush { maxBatchSize := N, maxConcurrent := C } fn st).st.concurrent = [] ∧
      (tFlush { maxBatchSize := N, maxConcurrent := C } fn st).calls =
        if st.batch = [] then [] else [st.batch]) ∧
    (runTransformer { maxBatchSize := N, maxConcurrent := C } fn
        (hdr :: (pre ++ suf))).calls.flatten =
      rowsOf { maxBatchSize := N, maxConcurrent := C } (pre ++ suf) := by
  obtain ⟨rh, hrh⟩ := Option.isSome_iff_exists.mp hph
  refine ⟨?_, fun st => ?_, ?_⟩
  · obtain ⟨outs, pend', hrun, hlen, hacc⟩ :=
      runChunksT_success { maxBatchSize := N, maxConcurrent := C } fn g (fun v => hfn v)
        pre [] [] (by simp only [List.length_nil]; omega)
        (by simp only [List.length_nil]; omega)
        (fun c hc => hp c (List.mem_append_left suf hc))
    simp only [List.map_nil] at hrun
    have hchunks : runChunksT { maxBatchSize := N, maxConcurrent := C } fn initTrans
        (hdr :: pre) =
        ⟨enqueueRow false rh ++ outs,
          (batchRun N [] (rowsOf { maxBatchSize := N, maxConcurrent := C } pre)).1,
          none,
          ⟨pend'.map .ok,
            (batchRun N [] (rowsOf { maxBatchSize := N, maxConcurrent := C } pre)).2,
            false⟩⟩ := by
      rw [runChunksT,
        tTransform_header { maxBatchSize := N, maxConcurrent := C } fn rfl hdr rh hrh]
      simp only [hrun, List.nil_append]
    rw [hchunks]
    constructor
    · simpa using hlen
    · exact batchRun_snd_length N _ [] (by simp only [List.length_nil]; omega)
  · obtain ⟨conc, batch, fc⟩ := st
    by_cases hb : batch = []
    · subst hb
      simp [tFlush]
      split <;> simp
    · simp [tFlush, hb, List.length_pos.mpr hb]
  · have hres := runTransformer_success { maxBatchSize := N, maxConcurrent := C } fn g
      (fun v => hfn v) rfl hN hC hdr (pre ++ suf) hph hp
    rw [hres]
    show (submissionsOf N (rowsOf { maxBatchSize := N, maxConcurrent := C }
      (pre ++ suf))).flatten = _
    exact submissionsOf_flatten N hN _

/-- C10, witness: `maxBatchSize = 2`, `maxConcurrent = 2`, an identity
transform, a header and three data rows split after the first — the
invariant, the flush drain rule, and full coverage at that instance. -/
theorem buffer_drain_invariant_witness :
    ((1 : Nat) ≤ 2 ∧
      ∀ c ∈ ["[\"1\"]".toList] ++ ["[\"2\"]".toList, "[\"3\"]".toList],
        (jsonParse c).isSome) ∧
    ((runChunksT { maxBatchSize := 2, maxConcurrent := 2 } (fun v => .ok v) initTrans
        ("[\"h\"]".toList :: ["[\"1\"]".toList])).st.concurrent.length < 2 ∧
      (runChunksT { maxBatchSize := 2, maxConcurrent := 2 } (fun v => .ok v) initTrans
        ("[\"h\"]".toList :: ["[\"1\"]".toList])).st.batch.length < 2) ∧
    (tFlush { maxBatchSize := 2, maxConcurrent := 2 } (fun v => .ok v)
        ⟨[], [.arr [.str ['9']]], false⟩).calls = [[.arr [.str ['9']]]] ∧
    (runTransformer { maxBatchSize := 2, maxConcurrent := 2 } (fun v => .ok v)
        ("[\"h\"]".toList :: (["[\"1\"]".toList] ++ ["[\"2\"]".toList, "[\"3\"]".toList]))).calls.flatten =
      rowsOf { maxBatchSize := 2, maxConcurrent := 2 }
        (["[\"1\"]".toList] ++ ["[\"2\"]".toList, "[\"3\"]".toList]) := by
  have h := buffer_drain_invariant 2 2 (fun v => .ok v) (fun v => v) (by decide) (by decide)
    (fun _ => rfl) "[\"h\"]".toList ["[\"1\"]".toList]
    ["[\"2\"]".toList, "[\"3\"]".toList] (by decide) (by decide)
  exact ⟨⟨by decide, by decide⟩, h.1,
    (h.2.1 ⟨[], [.arr [.str ['9']]], false⟩).2.trans (by decide), h.2.2⟩

/-- C9, counterexample to the claim as stated: a header chunk that is
the canonical serialization of an array of arrays is not passed through
byte-identically — `#enqueueRow` splits it into one chunk per sub-array,
so the first chunk emitted is `["a"]`, not `[["a"],["b"]]`. -/
theorem header_default_passthrough_counterexample :
    (runTransformer {} (fun v => .ok v) ["[[\"a\"],[\"b\"]]".toList]).outs =
      [.str "[\"a\"]".toList, .str "[\"b\"]".toList] ∧
    (runTransformer {} (fun v => .ok v) ["[[\"a\"],[\"b\"]]".toList]).outs.head? ≠
      some (.str "[[\"a\"],[\"b\"]]".toList) := by
  exact ⟨by decide, by decide⟩

/-- C9, witness: the amended passthrough applied to the canonical flat
header chunk `["a","b"]` and a transformation function that would delete
every row. -/
theorem header_default_passthrough_witness :
    (jsonParse "[\"a\",\"b\"]".toList = some (.arr [.str ['a'], .str ['b']]) ∧
      headIsArr [.str ['a'], .str ['b']] = false ∧
      jsonStringify (.arr [.str ['a'], .str ['b']]) = "[\"a\",\"b\"]".toList) ∧
    (runTransformer {} (fun _ => .ok .null)
        ("[\"a\",\"b\"]".toList :: ["[\"x\"]".toList])).outs.head? =
      some (.str "[\"a\",\"b\"]".toList) :=
  ⟨⟨by decide, by decide, by decide⟩,
    header_default_passthrough (fun _ => .ok .null) ["[\"x\"]".toList]
      "[\"a\",\"b\"]".toList [.str ['a'], .str ['b']] (by decide) (by decide) (by decide)⟩
